import Mathlib

/-!
Shallow embedding of the PNGFuse core (src/image.h, src/subfileimage.h).

Bytes are modelled as `Nat` values; byte buffers as `List Nat`.  The
functions under `src/` are translated directly.  Primitives that the
source takes from the lodepng library (zlib compression, chunk header
creation and traversal, CRC32) are not part of this repository's `src/`
tree; they are modelled from the spec's wire-format section, as noted on
each definition.
-/

namespace PNGFuse

/-- Error taxonomy of the spec (FormatError, CorruptChunkError,
CorruptRecordError, DecompressionError), plus a distinguished
`undefinedBehavior` outcome used to model source paths that perform
undefined pointer arithmetic instead of raising an error. -/
inductive PngErr where
  | formatError
  | corruptChunk
  | corruptRecord
  | decompressionError
  | undefinedBehavior
  deriving DecidableEq, Repr

/-- Modelled from the spec: 4-byte big-endian encoding of a 32-bit
integer, as used for chunk length and CRC fields ("all integers
big-endian"). -/
def be32 (n : Nat) : List Nat :=
  [n / 2 ^ 24 % 256, n / 2 ^ 16 % 256, n / 2 ^ 8 % 256, n % 256]

/-- Modelled from the spec: reading a 4-byte big-endian integer from the
head of a byte buffer, as `lodepng_chunk_length` does on a chunk
header. -/
def readBE32 (l : List Nat) : Nat :=
  (l.take 4).foldl (fun a b => 256 * a + b) 0

/-- One shift-and-conditionally-xor round of the reflected CRC32
computation (polynomial 0xEDB88320). -/
def crcRound (c : Nat) : Nat :=
  if c % 2 = 1 then (c / 2) ^^^ 0xEDB88320 else c / 2

/-- CRC32 update for a single byte: xor the byte in, then run eight
rounds. -/
def crcByte (c b : Nat) : Nat :=
  (List.range 8).foldl (fun a _ => crcRound a) (c ^^^ b)

/-- Modelled from the spec: the CRC32 checksum computed over (type code +
payload) when a chunk is created (lodepng's implementation is not under
src/). -/
def crc32 (l : List Nat) : Nat :=
  (l.foldl crcByte 0xFFFFFFFF) ^^^ 0xFFFFFFFF

/-- Modelled from the spec: `lodepng_zlib_compress` (not under src/).
The spec requires only that the compressed form is a zlib/deflate stream
inverted by decompression; it is modelled as an injective framing that
puts a two-byte zlib header in front of the data. -/
def zcompress (v : List Nat) : List Nat := 120 :: 218 :: v

/-- Modelled from the spec: `lodepng_zlib_decompress` (not under src/).
Inverts `zcompress` and fails with a decompression error on any byte
sequence that is not a stream produced by `zcompress`. -/
def zdecompress : List Nat → Except PngErr (List Nat)
  | 120 :: 218 :: v => .ok v
  | _ => .error .decompressionError

/-- Model of C `memchr(p, 0, n)` restricted to searching for the NUL
byte: index of the first 0 among the first `n` elements.  Faithful to
the source whenever `n` does not exceed the number of addressable bytes
after `p`, which holds at every call site under the well-formedness
hypotheses of the theorems below. -/
def memchr : List Nat → Nat → Option Nat
  | _, 0 => none
  | [], _ + 1 => none
  | b :: l, n + 1 => if b = 0 then some 0 else (memchr l n).map (· + 1)

/-- The fixed 8-byte PNG signature from `Image::Image` in src/image.h. -/
def pngSignature : List Nat := [137, 80, 78, 71, 13, 10, 26, 10]

/-- The zTXt type code bytes, `TextChunk::type()` in src/image.h. -/
def ztxtType : List Nat := [122, 84, 88, 116]

/-- The fuSe type code bytes, `FuseChunk::type()` in src/subfileimage.h. -/
def fuseType : List Nat := [102, 117, 83, 101]

/-- The fixed keyword bytes "PNGFuse", `FuseChunk::key` in
src/subfileimage.h. -/
def fuseKeyword : List Nat := [80, 78, 71, 70, 117, 115, 101]

/-- The IDAT type code bytes. -/
def idatType : List Nat := [73, 68, 65, 84]

/-- The IEND type code bytes. -/
def iendType : List Nat := [73, 69, 78, 68]

/-- Modelled from the spec: `lodepng_chunk_create` (not under src/),
following the spec's wire format `length(u32) type(4 bytes)
payload(length bytes) crc32(u32 over type+payload)`.  This is the body
of `ImageImplementation::chunk_encode`. -/
def chunkEncode (data : List Nat) (typ : List Nat) : List Nat :=
  be32 data.length ++ typ ++ data ++ be32 (crc32 (typ ++ data))

/-- Translation of `TextChunk::encode_data` (src/image.h:198-206):
the key bytes, a NUL separator, a zero compression-method byte, then the
zlib-compressed value. -/
def encode_data (key value : List Nat) : List Nat :=
  key ++ 0 :: 0 :: zcompress value

/-- Translation of `TextChunk::encode` (src/image.h:190-192): wrap
`encode_data` in a chunk header with the zTXt type code. -/
def textChunkEncode (key value : List Nat) : List Nat :=
  chunkEncode (encode_data key value) ztxtType

/-- Translation of `FuseChunk::encode` (src/subfileimage.h:88-90): wrap
`encode_data` with the fixed "PNGFuse" keyword in a chunk header with
the fuSe type code. -/
def fuseChunkEncode (value : List Nat) : List Nat :=
  chunkEncode (encode_data fuseKeyword value) fuseType

/-- Translation of the raw-chunk constructor
`TextChunk::TextChunk(const unsigned char *)` (src/image.h:163-184).
The argument is the byte sequence starting at the chunk header: length
is read as big-endian from the first four bytes, the payload starts at
offset 8, `memchr` searches the first `length - 1` payload bytes for the
NUL separator (its absence throws the corrupt-chunk error), the byte
after the separator must be 0, and the remaining `length - (i + 2)`
bytes are decompressed into the value.  The `head? = none` branch
models the out-of-bounds read the source would perform on a chunk whose
buffer ends before the compression-method byte. -/
def decodeText (chunk : List Nat) : Except PngErr (List Nat × List Nat) :=
  let length := readBE32 chunk
  let data := chunk.drop 8
  match memchr data (length - 1) with
  | none => .error .corruptChunk
  | some i =>
    match (data.drop (i + 1)).head? with
    | none => .error .undefinedBehavior
    | some m =>
      if m ≠ 0 then .error .corruptChunk
      else
        match zdecompress ((data.drop (i + 2)).take (length - (i + 2))) with
        | .error e => .error e
        | .ok value => .ok (data.take i, value)

/-- Translation of the raw-chunk constructor
`FuseChunk::FuseChunk(const unsigned char *)` (src/subfileimage.h:102):
it delegates to the `TextChunk` constructor and performs no further
check of its own. -/
def decodeFuse (chunk : List Nat) : Except PngErr (List Nat × List Nat) :=
  decodeText chunk

/-- Translation of `SubFile::merged` (src/subfileimage.h:54-61): the
UTF-8 filename bytes, a NUL separator, then the raw contents. -/
def merged (filename contents : List Nat) : List Nat :=
  filename ++ 0 :: contents

/-- Translation of `SubFile::from_merged` (src/subfileimage.h:43-48):
`memchr` locates the first NUL over the whole buffer; the bytes before
it become the filename and the bytes after it the contents.  The source
contains no error path: when no NUL exists, `memchr` returns a null
pointer which the source then uses in pointer arithmetic and string
construction, which is undefined behavior, modelled here as the
distinguished `undefinedBehavior` outcome. -/
def from_merged (data : List Nat) : Except PngErr (List Nat × List Nat) :=
  match memchr data data.length with
  | none => .error .undefinedBehavior
  | some i => .ok (data.take i, data.drop (i + 1))

/-- Translation of `FuseChunk::is_valid` (src/subfileimage.h:117-120)
applied to the byte suffix starting at the chunk header: the type-code
bytes at offsets 4-7 must equal "fuSe" and the first seven payload bytes
(offsets 8-14) must equal the "PNGFuse" keyword. -/
def is_valid_fuse (l : List Nat) : Bool :=
  ((l.drop 4).take 4 == fuseType) && ((l.drop 8).take 7 == fuseKeyword)

/-- Modelled from the spec: `lodepng_chunk_next` (not under src/),
which advances from one chunk header to the next (12 header/CRC bytes
plus the payload length) and yields the end of the buffer when the
current chunk does not fit. -/
def chunkNext (buf : List Nat) (pos : Nat) : Nat :=
  if buf.length < pos + 12 then buf.length
  else if buf.length < pos + 12 + readBE32 (buf.drop pos) then buf.length
  else pos + 12 + readBE32 (buf.drop pos)

/-- Fuel-indexed translation of the scan loop of `Image::get_chunks`
(src/image.h:293-304) at the `Image<FuseChunk>` instantiation used by
`SubFileImage`: starting at a byte offset, every chunk satisfying
`FuseChunk::is_valid` is decoded by the `FuseChunk` raw-chunk
constructor (whose failure aborts the whole enumeration, as a thrown
exception does in the source).  The fuel only bounds the number of loop
iterations; it is sufficient at every use below. -/
def getChunksF : Nat → List Nat → Nat → Except PngErr (List (List Nat × List Nat))
  | 0, _, _ => .error .formatError
  | fuel + 1, buf, pos =>
    if pos < buf.length then
      if is_valid_fuse (buf.drop pos) then do
        let kv ← decodeFuse (buf.drop pos)
        let tl ← getChunksF fuel buf (chunkNext buf pos)
        pure (kv :: tl)
      else getChunksF fuel buf (chunkNext buf pos)
    else .ok []

/-- Translation of `Image::get_chunks` (src/image.h:293-304): scan the
whole buffer starting at offset 8 (immediately after the signature). -/
def get_chunks (buf : List Nat) : Except PngErr (List (List Nat × List Nat)) :=
  getChunksF buf.length buf 8

/-- Fuel-indexed translation of the range-collecting scan loop of
`Image::clear_chunks` (src/image.h:311-342): walks the chunk stream,
counts every chunk satisfying `FuseChunk::is_valid`, and records maximal
contiguous runs of matching chunks as (start, end) byte-offset ranges.
Exactly as in the source, a run that is still open when the loop leaves
the buffer is never appended to the range list (the source only emits a
range upon meeting a non-matching chunk). -/
def clearScanF : Nat → List Nat → Nat → Option Nat → List (Nat × Nat) × Nat
  | 0, _, _, _ => ([], 0)
  | fuel + 1, buf, pos, rangeBegin =>
    if pos < buf.length then
      if is_valid_fuse (buf.drop pos) then
        let r := clearScanF fuel buf (chunkNext buf pos) (some (rangeBegin.getD pos))
        (r.1, r.2 + 1)
      else
        match rangeBegin with
        | some b =>
          let r := clearScanF fuel buf (chunkNext buf pos) none
          ((b, pos) :: r.1, r.2)
        | none => clearScanF fuel buf (chunkNext buf pos) none
    else ([], 0)

/-- The mutable image state of `Image<FuseChunk>` (src/image.h:236-373):
the raw byte buffer and the insertion offset `idat_end_pos` computed
once at load time. -/
structure PngImage where
  image : List Nat
  idat_end_pos : Nat

/-- Splicing a byte sequence into a buffer at a fixed offset, as
`image.insert(std::next(image.begin(), pos), ...)` does. -/
def insertAt (pos : Nat) (l : List Nat) (img : List Nat) : List Nat :=
  img.take pos ++ l ++ img.drop pos

/-- Erasing the half-open byte range `[r.1, r.2)` from a buffer, as
`image.erase` does in `Image::clear_chunks`. -/
def eraseRange (img : List Nat) (r : Nat × Nat) : List Nat :=
  img.take r.1 ++ img.drop r.2

/-- Translation of the single-chunk `Image::add_chunk`
(src/image.h:259-263) at the `FuseChunk` instantiation: encode the
chunk and splice it in at `idat_end_pos`.  The insertion offset is not
modified. -/
def add_chunk (st : PngImage) (value : List Nat) : PngImage :=
  ⟨insertAt st.idat_end_pos (fuseChunkEncode value) st.image, st.idat_end_pos⟩

/-- Translation of the multi-chunk `Image::add_chunk`
(src/image.h:270-287) at the `FuseChunk` instantiation: every chunk is
encoded, then the encoded forms are spliced in at `idat_end_pos` one by
one in reverse input order (the source iterates
`std::ranges::reverse_view(encoded)`).  The insertion offset is not
modified. -/
def add_chunks (st : PngImage) (values : List (List Nat)) : PngImage :=
  ⟨((values.map fuseChunkEncode).reverse).foldl
      (fun img e => insertAt st.idat_end_pos e img) st.image,
   st.idat_end_pos⟩

/-- Translation of `Image::clear_chunks` (src/image.h:311-342): collect
the ranges and the matching-chunk count with `clearScanF` starting at
offset 8, erase the collected ranges back-to-front, and return the new
state together with the count.  The insertion offset is not modified. -/
def clear_chunks (st : PngImage) : PngImage × Nat :=
  let scan := clearScanF st.image.length st.image 8 none
  (⟨scan.1.reverse.foldl eraseRange st.image, st.idat_end_pos⟩, scan.2)

/-- A raw wire chunk: type code, payload, and stored CRC bytes. -/
structure RawChunk where
  typ : List Nat
  payload : List Nat
  crc : List Nat

/-- The wire encoding of a raw chunk per the spec's format:
`length(u32) type(4 bytes) payload crc32(u32)`. -/
def encRaw (c : RawChunk) : List Nat :=
  be32 c.payload.length ++ c.typ ++ c.payload ++ c.crc

/-- Structural well-formedness of a raw chunk: four type bytes, four CRC
bytes, and a payload length representable in the u32 length field. -/
def wfRaw (c : RawChunk) : Prop :=
  c.typ.length = 4 ∧ c.crc.length = 4 ∧ c.payload.length < 2 ^ 32

instance (c : RawChunk) : Decidable (wfRaw c) := by
  unfold wfRaw; exact inferInstance

/-- The raw chunk produced by `FuseChunk::encode` for a given value. -/
def fuseRaw (v : List Nat) : RawChunk :=
  ⟨fuseType, encode_data fuseKeyword v, be32 (crc32 (fuseType ++ encode_data fuseKeyword v))⟩

/-- Reference enumeration over a structured chunk list: the result
`Image::get_chunks` must produce on a buffer consisting of the PNG
signature followed by the encodings of these chunks in order.  Each
chunk is examined together with the byte suffix that follows it, exactly
as the positional scan sees it. -/
def chunksOfFuse : List RawChunk → Except PngErr (List (List Nat × List Nat))
  | [] => .ok []
  | c :: rest =>
    let l := encRaw c ++ (rest.map encRaw).flatten
    if is_valid_fuse l then do
      let kv ← decodeFuse l
      let tl ← chunksOfFuse rest
      pure (kv :: tl)
    else chunksOfFuse rest

/-! ### Helper lemmas -/

theorem length_be32 (n : Nat) : (be32 n).length = 4 := rfl

theorem readBE32_be32 (n : Nat) (s : List Nat) (h : n < 2 ^ 32) :
    readBE32 (be32 n ++ s) = n := by
  simp only [readBE32, be32]
  simp only [List.cons_append, List.nil_append, List.take_succ_cons, List.take_zero,
    List.foldl_cons, List.foldl_nil]
  omega

theorem memchr_append_nul (key rest : List Nat) (n : Nat)
    (hkey : 0 ∉ key) (hn : key.length < n) :
    memchr (key ++ 0 :: rest) n = some key.length := by
  induction key generalizing n with
  | nil =>
    match n, hn with
    | n + 1, _ => simp [memchr]
  | cons b k ih =>
    match n, hn with
    | n + 1, hn =>
      have hb : b ≠ 0 := fun h => hkey (h ▸ List.mem_cons_self b k)
      have hk : 0 ∉ k := fun h => hkey (List.mem_cons_of_mem b h)
      have hlt : k.length < n := by
        simp only [List.length_cons] at hn; omega
      simp only [List.cons_append, memchr, if_neg hb, List.append_eq]
      rw [ih n hk hlt]
      simp [List.length_cons]

theorem memchr_eq_none (l : List Nat) (n : Nat)
    (h : ∀ b ∈ l.take n, b ≠ 0) : memchr l n = none := by
  induction l generalizing n with
  | nil => match n with | 0 => rfl | _ + 1 => rfl
  | cons b k ih =>
    match n with
    | 0 => rfl
    | n + 1 =>
      have hb : b ≠ 0 := h b (by simp)
      have hk : memchr k n = none := ih n fun x hx => h x (by simp [hx])
      simp [memchr, if_neg hb, hk]

theorem drop_append_cons (key : List Nat) (b : Nat) (rest : List Nat) :
    (key ++ b :: rest).drop (key.length + 1) = rest := by
  have h : key ++ b :: rest = (key ++ [b]) ++ rest := by simp
  rw [h, List.drop_left' (by simp)]

/-- Decoding a `TextChunk`-encoded chunk recovers the key-value pair,
for any trailing bytes after the chunk and any 4-byte type code. -/
theorem decodeText_chunkEncode (t key v s : List Nat)
    (ht : t.length = 4) (hkey : 0 ∉ key)
    (hsz : key.length + 4 + v.length < 2 ^ 32) :
    decodeText (chunkEncode (encode_data key v) t ++ s) = .ok (key, v) := by
  have hdlen : (encode_data key v).length = key.length + 4 + v.length := by
    simp [encode_data, zcompress]; omega
  set C := chunkEncode (encode_data key v) t ++ s with hC
  set tail := be32 (crc32 (t ++ encode_data key v)) ++ s with htail
  set D := key ++ 0 :: 0 :: 120 :: 218 :: (v ++ tail) with hD
  have hbuf : C = be32 (encode_data key v).length
      ++ (t ++ (encode_data key v ++ tail)) := by
    simp [hC, chunkEncode, htail]
  have hlen : readBE32 C = key.length + 4 + v.length := by
    rw [hbuf, readBE32_be32 _ _ (by omega)]; omega
  have hdrop8 : C.drop 8 = D := by
    rw [hbuf, ← List.append_assoc (be32 (encode_data key v).length) t]
    rw [List.drop_left' (by simp [List.length_append, length_be32, ht])]
    simp [hD, encode_data, zcompress]
  have hmem : memchr D (key.length + 4 + v.length - 1) = some key.length := by
    rw [hD]
    exact memchr_append_nul _ _ _ hkey (by omega)
  have hd1 : D.drop (key.length + 1) = 0 :: 120 :: 218 :: (v ++ tail) := by
    rw [hD]; exact drop_append_cons key 0 _
  have hhead : (D.drop (key.length + 1)).head? = some 0 := by
    rw [hd1]; rfl
  have hd2 : D.drop (key.length + 2) = 120 :: 218 :: (v ++ tail) := by
    have h : D = (key ++ [0, 0]) ++ 120 :: 218 :: (v ++ tail) := by simp [hD]
    rw [h, List.drop_left' (by simp)]
  have harith : key.length + 4 + v.length - (key.length + 2) = v.length + 2 := by
    omega
  have htake : (D.drop (key.length + 2)).take (key.length + 4 + v.length - (key.length + 2))
      = 120 :: 218 :: v := by
    rw [hd2, harith]
    have hv : (v ++ tail).take v.length = v := List.take_left' rfl
    simp [List.take_succ_cons, hv]
  have htakekey : D.take key.length = key := by
    rw [hD]; exact List.take_left' rfl
  simp only [decodeText, hlen, hdrop8, hmem, hhead, htake, htakekey, zdecompress]
  simp

theorem length_encRaw (c : RawChunk) (h : wfRaw c) :
    (encRaw c).length = 12 + c.payload.length := by
  obtain ⟨h1, h2, _⟩ := h
  simp [encRaw, h1, h2, length_be32]
  omega

theorem take_insertAt (p : Nat) (l img : List Nat) (hp : p ≤ img.length) :
    (insertAt p l img).take p = img.take p := by
  have hlen : (img.take p).length = p := by simp [List.length_take]; omega
  simp only [insertAt, List.append_assoc]
  exact List.take_left' hlen

theorem drop_insertAt (p : Nat) (l img : List Nat) (hp : p ≤ img.length) :
    (insertAt p l img).drop p = l ++ img.drop p := by
  have hlen : (img.take p).length = p := by simp [List.length_take]; omega
  simp only [insertAt, List.append_assoc]
  exact List.drop_left' hlen

theorem insertAt_insertAt (p : Nat) (a b img : List Nat) (hp : p ≤ img.length) :
    insertAt p a (insertAt p b img) = insertAt p (a ++ b) img := by
  have h1 : (insertAt p b img).take p = img.take p := take_insertAt p b img hp
  have h2 : (insertAt p b img).drop p = b ++ img.drop p := drop_insertAt p b img hp
  show (insertAt p b img).take p ++ a ++ (insertAt p b img).drop p = _
  rw [h1, h2]
  simp [insertAt]

/-- Inserting a list of byte sequences one by one at a fixed offset, in
reverse order, is the same as splicing in their concatenation. -/
theorem foldl_insertAt_reverse (p : Nat) (encs : List (List Nat)) (img : List Nat)
    (hp : p ≤ img.length) :
    encs.reverse.foldl (fun b e => insertAt p e b) img = insertAt p encs.flatten img := by
  induction encs with
  | nil => simp [insertAt]
  | cons e es ih =>
    rw [List.reverse_cons, List.foldl_append, ih, List.foldl_cons, List.foldl_nil,
      List.flatten_cons, insertAt_insertAt p e es.flatten img hp]

theorem length_flatten_ge (cs : List RawChunk) :
    cs.length ≤ ((cs.map encRaw).flatten).length := by
  induction cs with
  | nil => simp
  | cons c rest ih =>
    simp only [List.map_cons, List.flatten_cons, List.length_append, List.length_cons]
    have h : 1 ≤ (encRaw c).length := by simp [encRaw, be32]
    omega

/-- The positional scan of `get_chunks` agrees with the structural
enumeration `chunksOfFuse` on any buffer whose suffix from `pos` is the
concatenated encoding of a list of well-formed raw chunks. -/
theorem getChunksF_stream (cs : List RawChunk) (buf : List Nat) (pos fuel : Nat)
    (hwf : ∀ c ∈ cs, wfRaw c)
    (hstream : buf.drop pos = (cs.map encRaw).flatten)
    (hfuel : cs.length < fuel) :
    getChunksF fuel buf pos = chunksOfFuse cs := by
  induction cs generalizing pos fuel with
  | nil =>
    match fuel, hfuel with
    | fuel + 1, _ =>
      have hge : buf.length ≤ pos := List.drop_eq_nil_iff.mp (by simpa using hstream)
      simp [getChunksF, chunksOfFuse, Nat.not_lt.mpr hge]
  | cons c rest ih =>
    match fuel, hfuel with
    | fuel + 1, hfuel =>
      have hwfc : wfRaw c := hwf c (List.mem_cons_self c rest)
      have henc : (encRaw c).length = 12 + c.payload.length := length_encRaw c hwfc
      have h1 := congrArg List.length hstream
      simp only [List.length_drop, List.map_cons, List.flatten_cons,
        List.length_append] at h1
      have hbig : buf.length = pos + (12 + c.payload.length)
          + ((rest.map encRaw).flatten).length := by omega
      have hposlt : pos < buf.length := by omega
      have hread : readBE32 (buf.drop pos) = c.payload.length := by
        rw [hstream]
        simp only [List.map_cons, List.flatten_cons, encRaw, List.append_assoc]
        exact readBE32_be32 _ _ hwfc.2.2
      have hnext : chunkNext buf pos = pos + 12 + c.payload.length := by
        unfold chunkNext
        rw [hread, if_neg (by omega), if_neg (by omega)]
      have hdropnext : buf.drop (pos + 12 + c.payload.length)
          = (rest.map encRaw).flatten := by
        have h2 : buf.drop (pos + 12 + c.payload.length)
            = (buf.drop pos).drop (12 + c.payload.length) := by
          rw [List.drop_drop]
          congr 1
          omega
        rw [h2, hstream]
        simp only [List.map_cons, List.flatten_cons]
        exact List.drop_left' henc
      have hfl : rest.length < fuel := by
        simp only [List.length_cons] at hfuel; omega
      have ihres := ih (pos + 12 + c.payload.length) fuel
        (fun x hx => hwf x (List.mem_cons_of_mem c hx)) hdropnext hfl
      simp only [getChunksF, chunksOfFuse, if_pos hposlt, hnext, ihres, hstream,
        List.map_cons, List.flatten_cons]

theorem get_chunks_stream (cs : List RawChunk)
    (hwf : ∀ c ∈ cs, wfRaw c) :
    get_chunks (pngSignature ++ (cs.map encRaw).flatten) = chunksOfFuse cs := by
  unfold get_chunks
  apply getChunksF_stream cs _ 8 _ hwf
  · exact List.drop_left' (by simp [pngSignature])
  · have h1 := length_flatten_ge cs
    have h2 : (pngSignature ++ (cs.map encRaw).flatten).length
        = 8 + ((cs.map encRaw).flatten).length := by
      rw [List.length_append]
      rfl
    omega

/-- A chunk whose four type bytes differ from "fuSe" is skipped by the
structural enumeration, regardless of its payload. -/
theorem chunksOfFuse_skip (c : RawChunk) (rest : List RawChunk)
    (h4 : c.typ.length = 4) (hne : c.typ ≠ fuseType) :
    chunksOfFuse (c :: rest) = chunksOfFuse rest := by
  have htyp : ((encRaw c ++ (rest.map encRaw).flatten).drop 4).take 4 = c.typ := by
    simp only [encRaw, List.append_assoc]
    rw [List.drop_left' (by simp [length_be32])]
    exact List.take_left' h4
  have hval : is_valid_fuse (encRaw c ++ (rest.map encRaw).flatten) = false := by
    unfold is_valid_fuse
    rw [htyp]
    simp [hne]
  simp only [chunksOfFuse, hval]
  simp

theorem chunksOfFuse_skip_append (cs rest : List RawChunk)
    (h : ∀ c ∈ cs, c.typ.length = 4 ∧ c.typ ≠ fuseType) :
    chunksOfFuse (cs ++ rest) = chunksOfFuse rest := by
  induction cs with
  | nil => rfl
  | cons c cs' ih =>
    rw [List.cons_append, chunksOfFuse_skip c _ (h c (by simp)).1 (h c (by simp)).2]
    exact ih fun x hx => h x (by simp [hx])

theorem chunksOfFuse_skip_all (cs : List RawChunk)
    (h : ∀ c ∈ cs, c.typ.length = 4 ∧ c.typ ≠ fuseType) :
    chunksOfFuse cs = .ok [] := by
  have h1 : chunksOfFuse (cs ++ []) = chunksOfFuse [] := chunksOfFuse_skip_append cs [] h
  simpa using h1

theorem encRaw_fuseRaw (v : List Nat) :
    encRaw (fuseRaw v) = fuseChunkEncode v := rfl

theorem wfRaw_fuseRaw (v : List Nat) (h : v.length + 11 < 2 ^ 32) :
    wfRaw (fuseRaw v) := by
  refine ⟨rfl, rfl, ?_⟩
  simp [fuseRaw, encode_data, zcompress, fuseKeyword]
  omega

/-- The structural enumeration decodes a `FuseChunk`-encoded chunk at
the head of the stream to its (keyword, value) record. -/
theorem chunksOfFuse_fuse (v : List Nat) (rest : List RawChunk)
    (h : v.length + 11 < 2 ^ 32) :
    chunksOfFuse (fuseRaw v :: rest)
      = match chunksOfFuse rest with
        | .error e => .error e
        | .ok tl => .ok ((fuseKeyword, v) :: tl) := by
  have hvalid : is_valid_fuse (encRaw (fuseRaw v) ++ ((rest.map encRaw).flatten)) = true := by
    unfold is_valid_fuse
    have htyp : ((encRaw (fuseRaw v) ++ (rest.map encRaw).flatten).drop 4).take 4
        = fuseType := by
      simp only [encRaw, fuseRaw, List.append_assoc]
      rw [List.drop_left' (by simp [length_be32])]
      exact List.take_left' rfl
    have hkw : ((encRaw (fuseRaw v) ++ (rest.map encRaw).flatten).drop 8).take 7
        = fuseKeyword := by
      simp only [encRaw, fuseRaw, List.append_assoc]
      rw [← List.append_assoc (be32 (encode_data fuseKeyword v).length) fuseType]
      rw [List.drop_left' (by simp [List.length_append, length_be32]; rfl)]
      have h2 : encode_data fuseKeyword v
          ++ (be32 (crc32 (fuseType ++ encode_data fuseKeyword v)) ++ (rest.map encRaw).flatten)
          = fuseKeyword ++ (0 :: 0 :: zcompress v
            ++ (be32 (crc32 (fuseType ++ encode_data fuseKeyword v))
              ++ (rest.map encRaw).flatten)) := by
        simp [encode_data]
      rw [h2]
      exact List.take_left' rfl
    rw [htyp, hkw]
    simp
  have hdec : decodeFuse (encRaw (fuseRaw v) ++ (rest.map encRaw).flatten)
      = .ok (fuseKeyword, v) := by
    unfold decodeFuse
    rw [encRaw_fuseRaw]
    unfold fuseChunkEncode
    apply decodeText_chunkEncode fuseType fuseKeyword v _ rfl (by decide)
    simp [fuseKeyword]
    omega
  simp only [chunksOfFuse, hvalid, hdec]
  cases hres : chunksOfFuse rest with
  | error e => rfl
  | ok tl => rfl

/-! ### Claim theorems -/

/-- C1: For every ASCII key of at most 79 bytes containing no NUL byte
and every byte sequence v (including the empty sequence), decoding the
chunk produced by encoding (key, v) with the chunk codec
(`TextChunk::encode` followed by the `TextChunk` raw-chunk constructor)
returns exactly the pair (key, v).  The size bound keeps the payload
length representable in the wire format's unsigned 32-bit length
field. -/
theorem ztxt_roundtrip (key v : List Nat)
    (hkey : 0 ∉ key) (hascii : ∀ b ∈ key, b < 128) (hlen : key.length ≤ 79)
    (hsz : key.length + 4 + v.length < 2 ^ 32) :
    decodeText (textChunkEncode key v) = .ok (key, v) := by
  have h := decodeText_chunkEncode ztxtType key v [] rfl hkey hsz
  simpa [textChunkEncode] using h

/-- Witness for C1 at key = [75], v = [7, 8]. -/
theorem ztxt_roundtrip_witness :
    0 ∉ ([75] : List Nat) ∧ ([75] : List Nat).length ≤ 79 ∧
      decodeText (textChunkEncode [75] [7, 8]) = .ok ([75], [7, 8]) :=
  ⟨by decide, by decide,
    ztxt_roundtrip [75] [7, 8] (by decide) (by decide) (by decide) (by decide)⟩

/-- C2: For every UTF-8 filename containing no NUL byte and every byte
sequence c (which may itself contain NUL bytes), `SubFile::from_merged`
is a left inverse of `SubFile::merged`. -/
theorem merged_roundtrip (filename contents : List Nat) (hf : 0 ∉ filename) :
    from_merged (merged filename contents) = .ok (filename, contents) := by
  have hm : memchr (filename ++ 0 :: contents) (filename ++ 0 :: contents).length
      = some filename.length :=
    memchr_append_nul _ _ _ hf (by simp [List.length_append])
  simp only [from_merged, merged, hm]
  rw [List.take_left' rfl, drop_append_cons]

/-- Witness for C2 at filename = [104], contents = [0, 5] (the contents
contain a NUL byte). -/
theorem merged_roundtrip_witness :
    0 ∉ ([104] : List Nat) ∧ from_merged (merged [104] [0, 5]) = .ok ([104], [0, 5]) :=
  ⟨by decide, merged_roundtrip [104] [0, 5] (by decide)⟩

/-- C5 counterexample: a raw chunk of type "fuSe" whose decoded key is
"Other" (bytes [79, 116, 104, 101, 114]), not the "PNGFuse" keyword, is
decoded successfully by the `FuseChunk` raw-chunk constructor — it does
not fail with a corrupt-chunk error as the claim states. -/
theorem decodeFuse_wrong_key_cex :
    decodeFuse (chunkEncode (encode_data [79, 116, 104, 101, 114] [1]) fuseType)
        = .ok ([79, 116, 104, 101, 114], [1])
      ∧ [79, 116, 104, 101, 114] ≠ fuseKeyword :=
  ⟨rfl, by decide⟩

/-- C5 amended: the `FuseChunk` raw-chunk constructor performs no
keyword check at all — it decodes any well-formed chunk payload and
returns whatever key the payload carries, whether or not it equals
"PNGFuse" (keyword filtering is done separately by
`FuseChunk::is_valid`, and value splitting by `to_subfile` regardless of
the key). -/
theorem decodeFuse_ignores_keyword (key v : List Nat)
    (hkey : 0 ∉ key) (hsz : key.length + 4 + v.length < 2 ^ 32) :
    decodeFuse (chunkEncode (encode_data key v) fuseType) = .ok (key, v) := by
  have h := decodeText_chunkEncode fuseType key v [] rfl hkey hsz
  simpa [decodeFuse] using h

/-- Witness for the amended C5 at key = [75] (not the keyword),
v = [2]. -/
theorem decodeFuse_ignores_keyword_witness :
    0 ∉ ([75] : List Nat) ∧
      decodeFuse (chunkEncode (encode_data [75] [2]) fuseType) = .ok ([75], [2]) :=
  ⟨by decide, decodeFuse_ignores_keyword [75] [2] (by decide) (by decide)⟩

/-- C6: on a byte sequence with no NUL byte at all ([104, 105]),
`SubFile::from_merged` does not fail with a corrupt-record error: the
source performs undefined pointer arithmetic on memchr's null result
(modelled as the `undefinedBehavior` outcome). -/
theorem from_merged_no_nul_ub :
    from_merged [104, 105] = .error .undefinedBehavior ∧
      from_merged [104, 105] ≠ .error .corruptRecord := by
  refine ⟨rfl, fun h => ?_⟩
  rw [show from_merged [104, 105] = .error .undefinedBehavior from rfl] at h
  simp at h

/-- C7: decoding a structurally well-formed raw chunk with the
`TextChunk` raw-chunk constructor fails with the corrupt-chunk error
when no NUL byte occurs within the first `length - 1` payload bytes,
fails with the corrupt-chunk error when the byte immediately after the
first NUL (the compression-method byte) is nonzero, and otherwise (when
decompression of the remaining bytes succeeds) returns the bytes before
the NUL as the key. -/
theorem decodeText_corrupt_cases (t payload crc : List Nat)
    (ht : t.length = 4) (hsz : payload.length < 2 ^ 32) (hpos : 1 ≤ payload.length) :
    ((∀ b ∈ payload.take (payload.length - 1), b ≠ 0) →
        decodeText (be32 payload.length ++ t ++ payload ++ crc) = .error .corruptChunk)
    ∧ (∀ k m rest, payload = k ++ 0 :: m :: rest → 0 ∉ k →
        (m ≠ 0 →
          decodeText (be32 payload.length ++ t ++ payload ++ crc) = .error .corruptChunk)
        ∧ (m = 0 → ∀ val, zdecompress rest = .ok val →
          decodeText (be32 payload.length ++ t ++ payload ++ crc) = .ok (k, val))) := by
  have hlen : readBE32 (be32 payload.length ++ t ++ payload ++ crc) = payload.length := by
    simp only [List.append_assoc]
    exact readBE32_be32 _ _ hsz
  have hdrop8 : (be32 payload.length ++ t ++ payload ++ crc).drop 8 = payload ++ crc := by
    rw [List.append_assoc (be32 payload.length ++ t) payload crc,
      List.drop_left' (by simp [List.length_append, length_be32, ht])]
  constructor
  · intro hnonul
    have htk : (payload ++ crc).take (payload.length - 1)
        = payload.take (payload.length - 1) :=
      List.take_append_of_le_length (by omega)
    have hmem : memchr (payload ++ crc) (payload.length - 1) = none := by
      apply memchr_eq_none
      rw [htk]
      exact hnonul
    simp only [decodeText, hlen, hdrop8, hmem]
  · intro k m rest hp hk
    have hsplit : payload ++ crc = k ++ 0 :: (m :: (rest ++ crc)) := by
      rw [hp]; simp
    have hklen : k.length + 2 + rest.length = payload.length := by
      rw [hp]; simp [List.length_append]; omega
    have hmem : memchr (payload ++ crc) (payload.length - 1) = some k.length := by
      rw [hsplit]
      exact memchr_append_nul _ _ _ hk (by omega)
    have hhead : ((payload ++ crc).drop (k.length + 1)).head? = some m := by
      rw [hsplit, drop_append_cons]
      rfl
    constructor
    · intro hm
      simp only [decodeText, hlen, hdrop8, hmem, hhead, if_pos hm]
    · intro hm val hval
      subst hm
      have hd2 : (payload ++ crc).drop (k.length + 2) = rest ++ crc := by
        have h2 : payload ++ crc = (k ++ [0, 0]) ++ (rest ++ crc) := by
          rw [hp]; simp
        rw [h2, List.drop_left' (by simp)]
      have htk2 : ((payload ++ crc).drop (k.length + 2)).take
          (payload.length - (k.length + 2)) = rest := by
        rw [hd2]
        have harith : payload.length - (k.length + 2) = rest.length := by omega
        rw [harith]
        exact List.take_append_of_le_length (by omega) |>.trans (by simp)
      have htkk : (payload ++ crc).take k.length = k := by
        rw [hsplit]
        exact List.take_left' rfl
      simp only [decodeText, hlen, hdrop8, hmem, hhead, htk2, htkk, hval]
      simp

/-- Witness for C7 applied to a chunk whose two-byte payload [1, 2] has
no NUL among its first length - 1 bytes. -/
theorem decodeText_corrupt_cases_witness :
    decodeText (be32 2 ++ ztxtType ++ [1, 2] ++ [0, 0, 0, 0]) = .error .corruptChunk :=
  (decodeText_corrupt_cases ztxtType [1, 2] [0, 0, 0, 0] rfl (by decide) (by decide)).1
    (by decide)

/-- C3: on a loaded image whose chunk stream is a well-formed run `pre`
(ending with the image-data run, so that the insertion offset sits right
after it) followed by a well-formed run `post`, none of which are
fuSe-typed, inserting the chunk list [A, B, C] with the multi-chunk
`add_chunk` and then enumerating with `get_chunks` yields the records of
A, B, C in exactly the input order. -/
theorem add_chunks_order (pre post : List RawChunk) (va vb vc : List Nat)
    (hwf : ∀ c ∈ pre ++ post, wfRaw c)
    (htyp : ∀ c ∈ pre ++ post, c.typ ≠ fuseType)
    (ha : va.length + 11 < 2 ^ 32) (hb : vb.length + 11 < 2 ^ 32)
    (hc : vc.length + 11 < 2 ^ 32) :
    get_chunks (add_chunks
        ⟨pngSignature ++ (pre.map encRaw).flatten ++ (post.map encRaw).flatten,
          8 + ((pre.map encRaw).flatten).length⟩
        [va, vb, vc]).image
      = .ok [(fuseKeyword, va), (fuseKeyword, vb), (fuseKeyword, vc)] := by
  set P := (pre.map encRaw).flatten with hP
  set Q := (post.map encRaw).flatten with hQ
  have hlen1 : (pngSignature ++ P).length = 8 + P.length := by
    rw [List.length_append]
    rfl
  have hlen2 : (pngSignature ++ P ++ Q).length = 8 + P.length + Q.length := by
    rw [List.length_append, hlen1]
  have hfold : (add_chunks ⟨pngSignature ++ P ++ Q, 8 + P.length⟩ [va, vb, vc]).image
      = insertAt (8 + P.length)
          (fuseChunkEncode va ++ (fuseChunkEncode vb ++ (fuseChunkEncode vc ++ [])))
          (pngSignature ++ P ++ Q) := by
    show ([va, vb, vc].map fuseChunkEncode).reverse.foldl
        (fun b e => insertAt (8 + P.length) e b) (pngSignature ++ P ++ Q) = _
    rw [foldl_insertAt_reverse _ _ _ (by omega)]
    rfl
  have htake : (pngSignature ++ P ++ Q).take (8 + P.length) = pngSignature ++ P :=
    List.take_left' hlen1
  have hdropq : (pngSignature ++ P ++ Q).drop (8 + P.length) = Q :=
    List.drop_left' hlen1
  have himg2 : insertAt (8 + P.length)
        (fuseChunkEncode va ++ (fuseChunkEncode vb ++ (fuseChunkEncode vc ++ [])))
        (pngSignature ++ P ++ Q)
      = pngSignature
        ++ ((pre ++ [fuseRaw va, fuseRaw vb, fuseRaw vc] ++ post).map encRaw).flatten := by
    rw [insertAt, htake, hdropq]
    simp only [List.map_append, List.flatten_append, List.map_cons, List.flatten_cons,
      List.map_nil, List.flatten_nil, encRaw_fuseRaw, ← hP, ← hQ]
    simp [List.append_assoc]
  have hwfall : ∀ c ∈ pre ++ [fuseRaw va, fuseRaw vb, fuseRaw vc] ++ post, wfRaw c := by
    intro c hcmem
    rcases List.mem_append.mp hcmem with hl | hr
    · rcases List.mem_append.mp hl with hl2 | hm
      · exact hwf c (List.mem_append_left _ hl2)
      · simp only [List.mem_cons, List.not_mem_nil, or_false] at hm
        rcases hm with rfl | rfl | rfl
        · exact wfRaw_fuseRaw va ha
        · exact wfRaw_fuseRaw vb hb
        · exact wfRaw_fuseRaw vc hc
    · exact hwf c (List.mem_append_right _ hr)
  have hpost : chunksOfFuse post = .ok [] :=
    chunksOfFuse_skip_all post fun c hcp =>
      ⟨(hwf c (List.mem_append_right _ hcp)).1, htyp c (List.mem_append_right _ hcp)⟩
  have h3 : chunksOfFuse (fuseRaw vc :: post) = .ok [(fuseKeyword, vc)] := by
    rw [chunksOfFuse_fuse vc post hc, hpost]
  have h2 : chunksOfFuse (fuseRaw vb :: fuseRaw vc :: post)
      = .ok [(fuseKeyword, vb), (fuseKeyword, vc)] := by
    rw [chunksOfFuse_fuse vb _ hb, h3]
  have h1 : chunksOfFuse (fuseRaw va :: fuseRaw vb :: fuseRaw vc :: post)
      = .ok [(fuseKeyword, va), (fuseKeyword, vb), (fuseKeyword, vc)] := by
    rw [chunksOfFuse_fuse va _ ha, h2]
  have hcons : [fuseRaw va, fuseRaw vb, fuseRaw vc] ++ post
      = fuseRaw va :: fuseRaw vb :: fuseRaw vc :: post := by simp
  rw [hfold, himg2, get_chunks_stream _ hwfall, List.append_assoc,
    chunksOfFuse_skip_append pre _ (fun c hcp =>
      ⟨(hwf c (List.mem_append_left _ hcp)).1, htyp c (List.mem_append_left _ hcp)⟩),
    hcons, h1]

/-- Witness for C3: a loaded image with one IDAT chunk before the
insertion offset and one IEND chunk after it, into which the values [1],
[2], [3] are embedded. -/
theorem add_chunks_order_witness :
    get_chunks (add_chunks
        ⟨pngSignature
            ++ (([RawChunk.mk idatType [] (be32 (crc32 idatType))]).map encRaw).flatten
            ++ (([RawChunk.mk iendType [] (be32 (crc32 iendType))]).map encRaw).flatten,
          8 + ((([RawChunk.mk idatType [] (be32 (crc32 idatType))]).map encRaw).flatten).length⟩
        [[1], [2], [3]]).image
      = .ok [(fuseKeyword, [1]), (fuseKeyword, [2]), (fuseKeyword, [3])] :=
  add_chunks_order [⟨idatType, [], be32 (crc32 idatType)⟩]
    [⟨iendType, [], be32 (crc32 iendType)⟩] [1] [2] [3]
    (by decide) (by decide) (by decide) (by decide) (by decide)

/-- The failing container for C4: a loaded buffer (valid signature, an
IDAT chunk, so loading succeeds with insertion offset 20) whose chunk
stream ends with a matching fuSe chunk, with no chunk after it. -/
def c4Image : PngImage :=
  ⟨pngSignature ++ encRaw ⟨idatType, [], be32 (crc32 idatType)⟩ ++ fuseChunkEncode [], 20⟩

/-- C4 (code bug): on `c4Image` the first `clear_chunks` call returns
count 1 yet deletes nothing, because the matching run that is still open
when the scan reaches the end of the buffer is never flushed to the
range list; the second call therefore also returns 1, not 0 as the claim
and the function's own documentation ("the number of deleted chunks")
require. -/
theorem clear_chunks_not_idempotent :
    (clear_chunks c4Image).2 = 1
    ∧ (clear_chunks c4Image).1.image = c4Image.image
    ∧ (clear_chunks (clear_chunks c4Image).1).2 = 1 :=
  ⟨rfl, rfl, rfl⟩

/-- C8: `get_chunks` scans the whole chunk stream from offset 8, not
only the region after the image-data chunks: a matching fuSe chunk is
enumerated wherever it sits in the stream — in particular when all
image-data chunks are in `post`, i.e. the matching chunk lies before the
image-data region. -/
theorem get_chunks_whole_scan (pre post : List RawChunk) (v : List Nat)
    (hwf : ∀ c ∈ pre ++ post, wfRaw c)
    (htyp : ∀ c ∈ pre ++ post, c.typ ≠ fuseType)
    (hv : v.length + 11 < 2 ^ 32) :
    get_chunks (pngSignature ++ ((pre ++ [fuseRaw v] ++ post).map encRaw).flatten)
      = .ok [(fuseKeyword, v)] := by
  have hwfall : ∀ c ∈ pre ++ [fuseRaw v] ++ post, wfRaw c := by
    intro c hcmem
    rcases List.mem_append.mp hcmem with hl | hr
    · rcases List.mem_append.mp hl with hl2 | hm
      · exact hwf c (List.mem_append_left _ hl2)
      · simp only [List.mem_cons, List.not_mem_nil, or_false] at hm
        rcases hm with rfl
        exact wfRaw_fuseRaw v hv
    · exact hwf c (List.mem_append_right _ hr)
  have hpost : chunksOfFuse post = .ok [] :=
    chunksOfFuse_skip_all post fun c hcp =>
      ⟨(hwf c (List.mem_append_right _ hcp)).1, htyp c (List.mem_append_right _ hcp)⟩
  have hcons : [fuseRaw v] ++ post = fuseRaw v :: post := by simp
  rw [get_chunks_stream _ hwfall, List.append_assoc,
    chunksOfFuse_skip_append pre _ (fun c hcp =>
      ⟨(hwf c (List.mem_append_left _ hcp)).1, htyp c (List.mem_append_left _ hcp)⟩),
    hcons, chunksOfFuse_fuse v post hv, hpost]

/-- Witness for C8: the matching chunk (value [9]) sits before the IDAT
chunk and is still enumerated. -/
theorem get_chunks_whole_scan_witness :
    get_chunks (pngSignature
        ++ (([] ++ [fuseRaw [9]]
            ++ [RawChunk.mk idatType [] (be32 (crc32 idatType)),
                RawChunk.mk iendType [] (be32 (crc32 iendType))]).map encRaw).flatten)
      = .ok [(fuseKeyword, [9])] :=
  get_chunks_whole_scan []
    [⟨idatType, [], be32 (crc32 idatType)⟩, ⟨iendType, [], be32 (crc32 iendType)⟩]
    [9] (by decide) (by decide) (by decide)

/-- C9: all bytes of the container strictly before the insertion offset
are byte-identical before and after an insertion, for both the
single-chunk and the multi-chunk form of `add_chunk`. -/
theorem add_chunk_prefix_stable (st : PngImage) (v : List Nat) (vs : List (List Nat))
    (hp : st.idat_end_pos ≤ st.image.length) :
    (add_chunk st v).image.take st.idat_end_pos = st.image.take st.idat_end_pos
    ∧ (add_chunks st vs).image.take st.idat_end_pos = st.image.take st.idat_end_pos := by
  constructor
  · exact take_insertAt _ _ _ hp
  · show ((vs.map fuseChunkEncode).reverse.foldl
        (fun b e => insertAt st.idat_end_pos e b) st.image).take st.idat_end_pos = _
    rw [foldl_insertAt_reverse _ _ _ hp]
    exact take_insertAt _ _ _ hp

/-- Witness for C9 on the signature-only image with offset 8. -/
theorem add_chunk_prefix_stable_witness :
    (add_chunk ⟨pngSignature, 8⟩ [1]).image.take 8 = pngSignature.take 8
    ∧ (add_chunks ⟨pngSignature, 8⟩ [[1], [2]]).image.take 8 = pngSignature.take 8 :=
  add_chunk_prefix_stable ⟨pngSignature, 8⟩ [1] [[1], [2]] (by decide)

/-- C10: the insertion offset `idat_end_pos` is left unchanged by every
mutating operation (single-chunk insertion, multi-chunk insertion, chunk
deletion), and consequently two successive single-chunk insertions place
the second chunk's encoded bytes before the first chunk's, reversing the
call order in the final stream. -/
theorem idat_end_pos_fixed (st : PngImage) (v v1 v2 : List Nat) (vs : List (List Nat))
    (hp : st.idat_end_pos ≤ st.image.length) :
    (add_chunk st v).idat_end_pos = st.idat_end_pos
    ∧ (add_chunks st vs).idat_end_pos = st.idat_end_pos
    ∧ (clear_chunks st).1.idat_end_pos = st.idat_end_pos
    ∧ (add_chunk (add_chunk st v1) v2).image
        = st.image.take st.idat_end_pos ++ fuseChunkEncode v2
          ++ fuseChunkEncode v1 ++ st.image.drop st.idat_end_pos := by
  refine ⟨rfl, rfl, rfl, ?_⟩
  show insertAt st.idat_end_pos (fuseChunkEncode v2)
      (insertAt st.idat_end_pos (fuseChunkEncode v1) st.image) = _
  rw [insertAt_insertAt _ _ _ _ hp]
  simp [insertAt, List.append_assoc]

/-- Witness for C10 on the signature-only image with offset 8. -/
theorem idat_end_pos_fixed_witness :
    (add_chunk (add_chunk ⟨pngSignature, 8⟩ [1]) [2]).image
      = pngSignature.take 8 ++ fuseChunkEncode [2] ++ fuseChunkEncode [1]
        ++ pngSignature.drop 8 :=
  (idat_end_pos_fixed ⟨pngSignature, 8⟩ [0] [1] [2] [] (by decide)).2.2.2

end PNGFuse
